import Mathlib

/-!
Verification of the scalable linked list (`src/scalable_linked_list.js`).

The JS module stores one logical list as a summary item (holding the
`currentPage` counter) plus numbered data pages in a key-value store.  We
embed the per-list store state shallowly: `LState V` holds the summary's
`currentPage` and a partial map from page numbers to their `data_list`.
The KV gateway primitives (conditional put, atomic list-append returning
the new length, conditional counter increment) are external collaborators;
their contracts are taken from the spec's gateway table and inlined as
deterministic state transformers, which is exact for a single
non-concurrent caller.  The fault flags of `atomicAppendGo` inject the
`ValidationException` outcome of an append (item missing) at a chosen
attempt, which models the racy store behaviours the recovery path exists
for; an empty flag list is the fault-free sequential run.
-/

namespace ScalableLinkedList

/-- State of one logical list: the summary's `currentPage` counter and, for
each page number, the page's `data_list` when the page item exists. -/
structure LState (V : Type) where
  currentPage : Nat
  pages : Nat → Option (List V)

/-- The state right after `idempotentCreate`: `currentPage = 0` (see
`defaultPageSummary` in the source) and no data page materialized. -/
def initState (V : Type) : LState V :=
  ⟨0, fun _ => none⟩

/-- Store write: replace page `p`'s `data_list`. -/
def setPage {V : Type} (s : LState V) (p : Nat) (l : List V) : LState V :=
  ⟨s.currentPage, fun q => if q = p then some l else s.pages q⟩

/-- `createNewPage` of the source: a conditional put of a fresh page with an
empty `data_list`; `ConditionalCheckFailedException` (page already exists)
is swallowed, so an existing page is left untouched. -/
def createNewPageSeq {V : Type} (s : LState V) (p : Nat) : LState V :=
  match s.pages p with
  | none => setPage s p []
  | some _ => s

/-- `increasePageCounter` of the source: the incrementer primitive adds 1 to
`currentPage` conditional on its current value equalling the floor the
caller read; on `ConditionalCheckFailedException` the source returns
`undefined`, modelled as `none`. -/
def increasePageCounterSeq {V : Type} (s : LState V) (floorVal : Nat) :
    LState V × Option Nat :=
  if s.currentPage = floorVal then
    ({ s with currentPage := floorVal + 1 }, some (floorVal + 1))
  else (s, none)

/-- The error kinds of the append path. The source throws a bare
`new Error()` when the append→create→retry loop exhausts its one retry; the
repository documentation names that condition `createNewPageException`. -/
inductive AppendErr where
  | createNewPageException
deriving DecidableEq

/-- The `.then` branch of `atomicAppendImpl` after a successful atomic
list-append to page `p` that returned the new length `n`: build the result
`(page_id, sequence_id) = (p, n - 1)`, and when `n >= maxElementPerPage`
roll over by a conditional increment of `currentPage` followed (on a
winning increment) by creation of the next page. -/
def appendSuccessStep {V : Type} (cfg : Int) (s : LState V) (p : Nat)
    (l : List V) (v : V) : LState V × Except AppendErr (Nat × Nat) :=
  let l2 := l ++ [v]
  let n := l2.length
  let s1 := setPage s p l2
  if cfg ≤ (n : Int) then
    match increasePageCounterSeq s1 p with
    | (s2, some newCp) =>
        if p < newCp then (createNewPageSeq s2 newCp, Except.ok (p, n - 1))
        else (s2, Except.ok (p, n - 1))
    | (s2, none) => (s2, Except.ok (p, n - 1))
  else (s1, Except.ok (p, n - 1))

/-- `atomicAppendImpl` of the source.  The fuel argument counts the append
attempts still allowed: the source enters with `attempt = 0` and throws as
soon as `attempt > 1`, i.e. after two attempted appends, so the entry fuel
is 2.  An append attempt fails with `ValidationException` when the page
item is missing, or when the corresponding fault flag is set (modelling the
store replying `ItemMissing` for a racy reason); either way the source
creates the page (`AlreadyExists` swallowed) and recurses. -/
def atomicAppendGo {V : Type} (cfg : Int) (v : V) :
    Nat → List Bool → LState V → Nat → LState V × Except AppendErr (Nat × Nat)
  | 0, _, s, _ => (s, Except.error AppendErr.createNewPageException)
  | Nat.succ k, faults, s, p =>
    match s.pages p with
    | none => atomicAppendGo cfg v k faults.tail (createNewPageSeq s p) p
    | some l =>
      if faults.headD false then
        atomicAppendGo cfg v k faults.tail (createNewPageSeq s p) p
      else appendSuccessStep cfg s p l v

/-- `atomicAppendImpl(id, currentPage, value)` with injected append faults. -/
def atomicAppendImplF {V : Type} (cfg : Int) (faults : List Bool) (v : V)
    (s : LState V) (p : Nat) : LState V × Except AppendErr (Nat × Nat) :=
  atomicAppendGo cfg v 2 faults s p

/-- `atomicAppend(id, value)` for a single non-concurrent caller: read
`currentPage` from the summary, then run `atomicAppendImpl` fault-free. -/
def atomicAppendSeq {V : Type} (cfg : Int) (s : LState V) (v : V) :
    LState V × Except AppendErr (Nat × Nat) :=
  atomicAppendGo cfg v 2 [] s s.currentPage

/-- One sequential append, keeping only the post-state of a success. -/
def appendStep {V : Type} (cfg : Int) (s : LState V) (v : V) :
    Option (LState V) :=
  match atomicAppendSeq cfg s v with
  | (s2, Except.ok _) => some s2
  | (_, Except.error _) => none

/-- A sequence of successful sequential appends. -/
def appendManySeq {V : Type} (cfg : Int) : LState V → List V → Option (LState V)
  | s, [] => some s
  | s, v :: vs =>
    match appendStep cfg s v with
    | some s2 => appendManySeq cfg s2 vs
    | none => none

/-- States of a list operated on by a single non-concurrent caller: reachable
from the freshly created list by successful appends. -/
def ReachableSeq {V : Type} (cfg : Int) (s : LState V) : Prop :=
  ∃ vs : List V, appendManySeq cfg (initState V) vs = some s

/-- The process-wide configuration record (the store coordinates carry no
protocol content and are omitted). -/
structure ConfigRec where
  maxElementPerPage : Int
deriving DecidableEq

/-- The source's `config` literal: `maxElementPerPage: 50` by default. -/
def configDefault : ConfigRec := ⟨50⟩

/-- `configureMaximumNumberOfElementPerPage`: the new value is stored only
when it is truthy; for a number, truthy means nonzero.  There is no
minimum-of-1 validation, so a negative value is stored verbatim. -/
def configureMaximumNumberOfElementPerPage (n : Int) (cur : Int) : Int :=
  if n = 0 then cur else n

/-- The summary record built by `defaultPageSummary` (timestamps, being wall
clock reads, are omitted). -/
structure SummaryRec (M : Type) where
  v : Nat
  currentPage : Nat
  metadata : Option M
deriving DecidableEq

/-- Store state as seen by `idempotentCreate`: the summary item, when it
exists, plus the data pages. -/
structure CreateState (M V : Type) where
  summary : Option (SummaryRec M)
  pages : Nat → Option (List V)

/-- `defaultPageSummary(id, metadata)`: version 1, `currentPage = 0`. -/
def defaultPageSummary {M : Type} (meta : Option M) : SummaryRec M :=
  ⟨1, 0, meta⟩

/-- Outcome of the conditional put behind `idempotentCreate`. -/
inductive CreateErr where
  | conditionalCheckFailed
deriving DecidableEq

/-- `idempotentCreate(id, metadata)`: a conditional put of the fresh summary.
When no summary exists the put succeeds and the locally built summary is
returned.  When the summary already exists the conditional put rejects
with `ConditionalCheckFailedException`, and — the source attaches no
`.catch` to this promise — that rejection propagates to the caller; the
stored summary is never overwritten either way. -/
def idempotentCreateM {M V : Type} (st : CreateState M V) (meta : Option M) :
    CreateState M V × Except CreateErr (SummaryRec M) :=
  match st.summary with
  | none =>
      ({ st with summary := some (defaultPageSummary meta) },
        Except.ok (defaultPageSummary meta))
  | some _ => (st, Except.error CreateErr.conditionalCheckFailed)

/-- An element as decorated by `indexDataList`: the stored value, the page it
was read from, and its zero-based offset in that page at read time.  The
source writes the two ids as decimal strings; they are kept as the numbers
those strings denote. -/
structure Item (V : Type) where
  val : V
  page_id : Nat
  sequence_id : Nat
deriving DecidableEq

/-- `indexDataList`: decorate each element of a page's `data_list` with the
page number and its running offset (the source's `forEach` counter). -/
def indexFrom {V : Type} (p : Nat) : Nat → List V → List (Item V)
  | _, [] => []
  | i, v :: vs => ⟨v, p, i⟩ :: indexFrom p (i + 1) vs

/-- `retrieveDataList`: fetch page `p`'s `data_list` and index it; a missing
page (the promise rejection is caught and turned into `undefined`) reads as
the empty list. -/
def dlAt {V : Type} (s : LState V) (p : Nat) : List (Item V) :=
  match s.pages p with
  | none => []
  | some l => indexFrom p 0 l

/-- `data_list.splice(k, length - k)` keeps the prefix of length `k`; a
negative `k` counts from the end (JS splice), clamped at 0. -/
def spliceKeep {V : Type} (dl : List (Item V)) (k : Int) : List (Item V) :=
  if k < 0 then dl.take ((dl.length : Int) + k).toNat else dl.take k.toNat

/-- One page's contribution to the walk: cut at `fromSequence` when that
value is truthy (a nonzero number — `if (fromSequence)` in the source, so a
cut of 0 is skipped), then reverse. -/
def walkChunk {V : Type} (dl : List (Item V)) (cut : Option Int) :
    List (Item V) :=
  match cut with
  | some k => if k = 0 then dl.reverse else (spliceKeep dl k).reverse
  | none => dl.reverse

/-- The chunk page `p` adds to the accumulator of `retrieveNElement`. -/
def chunkAt {V : Type} (s : LState V) (p : Nat) (cut : Option Int) :
    List (Item V) :=
  walkChunk (dlAt s p) cut

/-- `recursivelyRetrieveData` of `retrieveNElement`: walk the pages downward
from `p`, skipping missing/empty pages, cutting only the first page at the
cursor, reversing each page and concatenating, and stopping as soon as the
accumulator reaches `N` items.  Walking below page 0 (the source's
`currentPage < 0` base case) ends the recursion. -/
def goN {V : Type} (s : LState V) (N : Nat) :
    Nat → Option Int → List (Item V) → List (Item V)
  | 0, cut, acc =>
    let dl := dlAt s 0
    if dl.isEmpty then acc else acc ++ walkChunk dl cut
  | Nat.succ q, cut, acc =>
    let dl := dlAt s (q + 1)
    let acc2 := if dl.isEmpty then acc else acc ++ walkChunk dl cut
    if acc2.length < N then goN s N q none acc2 else acc2

/-- `retrieveNElement(id, fromPage, fromSequence, numberOfItems)`: run the
walk, then truncate to the first `N` items when the accumulator overshot. -/
def retrieveNElementN {V : Type} (s : LState V) (fromPage : Nat)
    (cut : Option Int) (N : Nat) : List (Item V) :=
  let r := goN s N fromPage cut []
  if N < r.length then r.take N else r

/-- `retrieveLastMostRecent(id, N)`: the walk from `currentPage` with no
in-page cut. -/
def retrieveLastMostRecentM {V : Type} (s : LState V) (N : Nat) :
    List (Item V) :=
  retrieveNElementN s s.currentPage none N

/-- The full (untruncated, never-stopping) walk: every page from `p` down to
0, the first cut at the cursor, each page reversed, all concatenated. -/
def flattenWalk {V : Type} (s : LState V) : Nat → Option Int → List (Item V)
  | 0, cut => chunkAt s 0 cut
  | Nat.succ q, cut => chunkAt s (q + 1) cut ++ flattenWalk s q none

/-- The JS values a cursor field can hold in this protocol, by their numeric
content: `numStr n` is the decimal string for `n` (nonempty, hence truthy,
even for `"0"`), `num i` a number (truthy iff nonzero), plus the falsy
empty string and `undefined`. -/
inductive JsVal where
  | numStr (n : Nat)
  | num (i : Int)
  | emptyStr
  | undef
deriving DecidableEq

/-- JS truthiness fused with `parseInt`: `some` of the parsed integer when
the value is truthy, `none` when it is falsy (`undefined`, `''`, `0`). -/
def jsTruthyInt : JsVal → Option Int
  | JsVal.numStr n => some (n : Int)
  | JsVal.num i => if i = 0 then none else some i
  | JsVal.emptyStr => none
  | JsVal.undef => none

/-- A cursor as handed to `retrieveNextMostRecent`. -/
structure Cursor where
  page_id : JsVal
  sequence_id : JsVal
deriving DecidableEq

/-- `getValidPointer`: a `sequence_id <= 0` drops the in-page cut and steps
to the previous page; a negative page is clamped to page 0 with sequence 0
(and a sequence of 0 is falsy, so it acts as no cut in the walk). -/
def getValidPointer (pi si : Int) : Int × Option Int :=
  let pr := if si ≤ 0 then (pi - 1, (none : Option Int)) else (pi, some si)
  if pr.1 < 0 then ((0 : Int), some (0 : Int)) else pr

/-- Error kind of `retrieveNextMostRecent` (the source throws the string
`'No valid pointer has been set'`). -/
inductive RetrievalErr where
  | invalidCursor
deriving DecidableEq

/-- `retrieveNextMostRecent(id, startAfterPointer, N)`: reject an absent
cursor or one with a falsy `page_id` or `sequence_id` (the source's truthy
test), parse the fields, normalize via `getValidPointer`, and walk.  The
clamped page is nonnegative by construction, so the `Nat` conversion is
exact. -/
def retrieveNextMostRecentM {V : Type} (s : LState V) (ptr : Option Cursor)
    (N : Nat) : Except RetrievalErr (List (Item V)) :=
  match ptr with
  | none => Except.error RetrievalErr.invalidCursor
  | some c =>
    match jsTruthyInt c.page_id, jsTruthyInt c.sequence_id with
    | some pageInt, some seqInt =>
      let pr := getValidPointer pageInt seqInt
      Except.ok (retrieveNElementN s pr.1.toNat pr.2 N)
    | some _, none => Except.error RetrievalErr.invalidCursor
    | none, _ => Except.error RetrievalErr.invalidCursor

/-- Most-recent-first: the item listed earlier comes from a higher page, or
from the same page at a higher sequence offset. -/
def mostRecentFirst {V : Type} (a b : Item V) : Prop :=
  b.page_id < a.page_id ∨ (a.page_id = b.page_id ∧ b.sequence_id < a.sequence_id)

/-- Delete page `q` from the store (the blank-page experiment of the spec). -/
def erasePage {V : Type} (s : LState V) (q : Nat) : LState V :=
  ⟨s.currentPage, fun r => if r = q then none else s.pages r⟩

/-- Keep the items not taken from page `q`. -/
def notPage {V : Type} (q : Nat) (x : Item V) : Bool :=
  if x.page_id = q then false else true

/-- Fresh empty store for the create experiments. -/
def createCx0 : CreateState Nat Nat :=
  ⟨none, fun _ => none⟩

/-- The list reached by one successful append (value 7) on a fresh list with
`maxElementPerPage = 2`: page 0 holds `[7]`, `currentPage = 0`. -/
def reachedOne : LState Nat :=
  (appendManySeq 2 (initState Nat) [7]).getD (initState Nat)

/-- A three-page store (one value per page) for the blank-page experiment. -/
def sBlank : LState Nat :=
  ⟨2, fun q => if q = 0 then some [30] else if q = 1 then some [20]
    else if q = 2 then some [10] else none⟩

/-- A one-page store: page 0 holds the single value 3. -/
def sHead : LState Nat :=
  ⟨0, fun q => if q = 0 then some [3] else none⟩

/-- A two-page store whose most recent item sits at `(1, 0)`. -/
def sTwoPages : LState Nat :=
  ⟨1, fun q => if q = 0 then some [10, 11] else if q = 1 then some [12]
    else none⟩

section Lemmas

variable {V : Type}

@[simp]
theorem setPage_currentPage (s : LState V) (p : Nat) (l : List V) :
    (setPage s p l).currentPage = s.currentPage := rfl

@[simp]
theorem setPage_pages (s : LState V) (p q : Nat) (l : List V) :
    (setPage s p l).pages q = if q = p then some l else s.pages q := rfl

@[simp]
theorem createNewPageSeq_currentPage (s : LState V) (p : Nat) :
    (createNewPageSeq s p).currentPage = s.currentPage := by
  cases h : s.pages p <;> simp [createNewPageSeq, h]

theorem createNewPageSeq_pages_ne (s : LState V) {p q : Nat} (hq : q ≠ p) :
    (createNewPageSeq s p).pages q = s.pages q := by
  cases h : s.pages p <;> simp [createNewPageSeq, h, hq]

@[simp]
theorem createNewPageSeq_pages_self (s : LState V) (p : Nat) :
    (createNewPageSeq s p).pages p = some ((s.pages p).getD []) := by
  cases h : s.pages p <;> simp [createNewPageSeq, h]

theorem createNewPageSeq_idem (s : LState V) (p : Nat) :
    createNewPageSeq (createNewPageSeq s p) p = createNewPageSeq s p := by
  cases h : s.pages p <;>
    simp [createNewPageSeq, h, setPage]

theorem appendSuccessStep_snd (cfg : Int) (s : LState V) (p : Nat)
    (l : List V) (v : V) :
    (appendSuccessStep cfg s p l v).2 = Except.ok (p, l.length) := by
  simp only [appendSuccessStep, increasePageCounterSeq]
  repeat' split
  all_goals simp_all

theorem appendSuccessStep_cp_le (cfg : Int) (s : LState V) (p : Nat)
    (l : List V) (v : V) :
    s.currentPage ≤ (appendSuccessStep cfg s p l v).1.currentPage := by
  simp only [appendSuccessStep, increasePageCounterSeq]
  by_cases h1 : cfg ≤ (l.length : Int) + 1
  · by_cases h2 : s.currentPage = p
    · simp [h1, h2]
    · simp [h1, h2]
  · simp [h1]

theorem atomicAppendGo_cp_le (cfg : Int) (v : V) (k : Nat) (faults : List Bool)
    (s : LState V) (p : Nat) :
    s.currentPage ≤ (atomicAppendGo cfg v k faults s p).1.currentPage := by
  induction k generalizing faults s with
  | zero => simp [atomicAppendGo]
  | succ k ih =>
    unfold atomicAppendGo
    cases h : s.pages p with
    | none =>
      have := ih faults.tail (createNewPageSeq s p)
      simpa using this
    | some l =>
      by_cases hf : faults.headD false = true
      · have := ih faults.tail (createNewPageSeq s p)
        simp only [hf, if_true]
        simpa using this
      · simp only [hf, if_false, Bool.false_eq_true]
        simpa using appendSuccessStep_cp_le cfg s p l v

theorem walkChunk_nil {V : Type} (cut : Option Int) :
    walkChunk ([] : List (Item V)) cut = [] := by
  cases cut with
  | none => rfl
  | some k => by_cases hk : k = 0 <;> simp [walkChunk, spliceKeep, hk]

theorem spliceKeep_sublist {V : Type} (dl : List (Item V)) (k : Int) :
    List.Sublist (spliceKeep dl k) dl := by
  unfold spliceKeep
  split <;> exact List.take_sublist _ _

theorem walkChunk_sublist {V : Type} (dl : List (Item V)) (cut : Option Int) :
    List.Sublist (walkChunk dl cut) dl.reverse := by
  cases cut with
  | none => exact List.Sublist.refl _
  | some k =>
    by_cases hk : k = 0
    · simp [walkChunk, hk]
    · simpa [walkChunk, hk] using List.Sublist.reverse (spliceKeep_sublist dl k)

theorem goN_acc2 {V : Type} (s : LState V) (p : Nat) (cut : Option Int)
    (acc : List (Item V)) :
    (if (dlAt s p).isEmpty then acc else acc ++ walkChunk (dlAt s p) cut) =
      acc ++ chunkAt s p cut := by
  by_cases hdl : (dlAt s p).isEmpty = true
  · have hnil : dlAt s p = [] := by simpa [List.isEmpty_iff] using hdl
    simp [hdl, chunkAt, hnil, walkChunk_nil]
  · simp [hdl, chunkAt]

theorem goN_spec {V : Type} (s : LState V) (N : Nat) :
    ∀ (p : Nat) (cut : Option Int) (acc : List (Item V)),
      goN s N p cut acc = acc ++ flattenWalk s p cut ∨
      (N ≤ (goN s N p cut acc).length ∧
        ∃ t, acc ++ flattenWalk s p cut = goN s N p cut acc ++ t) := by
  intro p
  induction p with
  | zero =>
    intro cut acc
    left
    show (if (dlAt s 0).isEmpty then acc else acc ++ walkChunk (dlAt s 0) cut)
      = acc ++ flattenWalk s 0 cut
    rw [goN_acc2]
    rfl
  | succ q ih =>
    intro cut acc
    have hstep : goN s N (q + 1) cut acc =
        if (acc ++ chunkAt s (q + 1) cut).length < N then
          goN s N q none (acc ++ chunkAt s (q + 1) cut)
        else acc ++ chunkAt s (q + 1) cut := by
      show (if (if (dlAt s (q + 1)).isEmpty then acc
              else acc ++ walkChunk (dlAt s (q + 1)) cut).length < N then _ else _) = _
      rw [goN_acc2]
    have hflat : flattenWalk s (q + 1) cut =
        chunkAt s (q + 1) cut ++ flattenWalk s q none := rfl
    by_cases hlt : (acc ++ chunkAt s (q + 1) cut).length < N
    · rw [hstep, if_pos hlt]
      rcases ih none (acc ++ chunkAt s (q + 1) cut) with h | ⟨hN, t, ht⟩
      · left
        rw [h, hflat, List.append_assoc]
      · right
        refine ⟨hN, t, ?_⟩
        rw [hflat, ← List.append_assoc, ht]
    · rw [hstep, if_neg hlt]
      right
      refine ⟨Nat.le_of_not_lt hlt, flattenWalk s q none, ?_⟩
      rw [hflat, List.append_assoc]

theorem retrieveNElementN_eq_take {V : Type} (s : LState V) (p : Nat)
    (cut : Option Int) (N : Nat) :
    retrieveNElementN s p cut N = (flattenWalk s p cut).take N := by
  unfold retrieveNElementN
  rcases goN_spec s N p cut [] with h | ⟨hN, t, ht⟩
  · rw [h, List.nil_append]
    by_cases hlen : N < (flattenWalk s p cut).length
    · simp [hlen]
    · simp [hlen, List.take_of_length_le (Nat.le_of_not_lt hlen)]
  · rw [List.nil_append] at ht
    rw [ht]
    by_cases hlen : N < (goN s N p cut []).length
    · simp [hlen, List.take_append_of_le_length (le_of_lt hlen)]
    · have hlen2 : (goN s N p cut []).length ≤ N := Nat.le_of_not_lt hlen
      simp [hlen, List.take_append_of_le_length hN,
        List.take_of_length_le hlen2]

theorem indexFrom_mem {V : Type} {p : Nat} {x : Item V} :
    ∀ {i : Nat} {l : List V}, x ∈ indexFrom p i l →
      x.page_id = p ∧ i ≤ x.sequence_id := by
  intro i l
  induction l generalizing i with
  | nil => intro h; simp [indexFrom] at h
  | cons v vs ih =>
    intro h
    rcases (by simpa [indexFrom] using h : x = ⟨v, p, i⟩ ∨ x ∈ indexFrom p (i + 1) vs) with h1 | h2
    · subst h1; exact ⟨rfl, Nat.le_refl _⟩
    · exact ⟨(ih h2).1, Nat.le_of_succ_le (ih h2).2⟩

theorem indexFrom_pairwise {V : Type} (p : Nat) :
    ∀ (i : Nat) (l : List V),
      (indexFrom p i l).Pairwise
        (fun a b : Item V => a.sequence_id < b.sequence_id) := by
  intro i l
  induction l generalizing i with
  | nil => simp [indexFrom]
  | cons v vs ih =>
    simp only [indexFrom, List.pairwise_cons]
    exact ⟨fun x hx => Nat.lt_of_lt_of_le (Nat.lt_succ_self i) (indexFrom_mem hx).2,
      ih (i + 1)⟩

theorem indexFrom_length {V : Type} (p : Nat) :
    ∀ (i : Nat) (l : List V), (indexFrom p i l).length = l.length := by
  intro i l
  induction l generalizing i with
  | nil => rfl
  | cons v vs ih => simp [indexFrom, ih]

theorem dlAt_mem {V : Type} {s : LState V} {p : Nat} {x : Item V}
    (h : x ∈ dlAt s p) : x.page_id = p := by
  unfold dlAt at h
  cases hp : s.pages p with
  | none => rw [hp] at h; simp at h
  | some l => rw [hp] at h; exact (indexFrom_mem h).1

theorem dlAt_pairwise {V : Type} (s : LState V) (p : Nat) :
    (dlAt s p).Pairwise (fun a b : Item V => a.sequence_id < b.sequence_id) := by
  unfold dlAt
  cases hp : s.pages p with
  | none => simp
  | some l => exact indexFrom_pairwise p 0 l

theorem chunkAt_mem {V : Type} {s : LState V} {p : Nat} {cut : Option Int}
    {x : Item V} (h : x ∈ chunkAt s p cut) : x.page_id = p := by
  have hx : x ∈ (dlAt s p).reverse :=
    (walkChunk_sublist (dlAt s p) cut).mem h
  exact dlAt_mem (List.mem_reverse.mp hx)

theorem chunkAt_pairwise {V : Type} (s : LState V) (p : Nat)
    (cut : Option Int) : (chunkAt s p cut).Pairwise (mostRecentFirst (V := V)) := by
  have hrev : (dlAt s p).reverse.Pairwise
      (fun a b : Item V => b.sequence_id < a.sequence_id) := by
    rw [List.pairwise_reverse]
    exact dlAt_pairwise s p
  have hc : (chunkAt s p cut).Pairwise
      (fun a b : Item V => b.sequence_id < a.sequence_id) :=
    List.Pairwise.sublist (walkChunk_sublist (dlAt s p) cut) hrev
  refine List.Pairwise.imp_of_mem ?_ hc
  intro a b ha hb hlt
  exact Or.inr ⟨(chunkAt_mem ha).trans (chunkAt_mem hb).symm, hlt⟩

theorem flattenWalk_mem {V : Type} (s : LState V) :
    ∀ (p : Nat) (cut : Option Int) (x : Item V),
      x ∈ flattenWalk s p cut → x.page_id ≤ p := by
  intro p
  induction p with
  | zero =>
    intro cut x h
    exact Nat.le_of_eq (chunkAt_mem (by simpa [flattenWalk] using h))
  | succ q ih =>
    intro cut x h
    rcases List.mem_append.mp (by simpa [flattenWalk] using h) with h1 | h2
    · exact Nat.le_of_eq (chunkAt_mem h1)
    · exact Nat.le_succ_of_le (ih none x h2)

theorem flattenWalk_pairwise {V : Type} (s : LState V) :
    ∀ (p : Nat) (cut : Option Int),
      (flattenWalk s p cut).Pairwise (mostRecentFirst (V := V)) := by
  intro p
  induction p with
  | zero => intro cut; exact chunkAt_pairwise s 0 cut
  | succ q ih =>
    intro cut
    show (chunkAt s (q + 1) cut ++ flattenWalk s q none).Pairwise _
    rw [List.pairwise_append]
    refine ⟨chunkAt_pairwise s (q + 1) cut, ih none, ?_⟩
    intro a ha b hb
    left
    calc b.page_id ≤ q := flattenWalk_mem s q none b hb
    _ < q + 1 := Nat.lt_succ_self q
    _ = a.page_id := (chunkAt_mem ha).symm

@[simp]
theorem erasePage_currentPage {V : Type} (s : LState V) (q : Nat) :
    (erasePage s q).currentPage = s.currentPage := rfl

theorem dlAt_erase {V : Type} (s : LState V) (q p : Nat) :
    dlAt (erasePage s q) p = if p = q then [] else dlAt s p := by
  by_cases h : p = q <;> simp [dlAt, erasePage, h]

theorem chunkAt_erase {V : Type} (s : LState V) (q p : Nat) (cut : Option Int) :
    chunkAt (erasePage s q) p cut = if p = q then [] else chunkAt s p cut := by
  by_cases h : p = q <;> simp [chunkAt, dlAt_erase, h, walkChunk_nil]

theorem chunkAt_filter_ne {V : Type} (s : LState V) {q p : Nat} (h : p ≠ q)
    (cut : Option Int) :
    (chunkAt s p cut).filter (notPage q) = chunkAt s p cut := by
  refine List.filter_eq_self.mpr ?_
  intro x hx
  simp [notPage, chunkAt_mem hx, h]

theorem chunkAt_filter_self {V : Type} (s : LState V) (q : Nat)
    (cut : Option Int) :
    (chunkAt s q cut).filter (notPage q) = [] := by
  refine List.filter_eq_nil_iff.mpr ?_
  intro x hx
  simp [notPage, chunkAt_mem hx]

theorem flattenWalk_erase {V : Type} (s : LState V) (q : Nat) :
    ∀ (p : Nat) (cut : Option Int),
      flattenWalk (erasePage s q) p cut =
        (flattenWalk s p cut).filter (notPage q) := by
  intro p
  induction p with
  | zero =>
    intro cut
    show chunkAt (erasePage s q) 0 cut = (chunkAt s 0 cut).filter (notPage q)
    rw [chunkAt_erase]
    by_cases h : 0 = q
    · rw [if_pos h, h, chunkAt_filter_self]
    · rw [if_neg h, chunkAt_filter_ne s (fun hc => h hc) cut]
  | succ r ih =>
    intro cut
    show chunkAt (erasePage s q) (r + 1) cut ++ flattenWalk (erasePage s q) r none
      = (chunkAt s (r + 1) cut ++ flattenWalk s r none).filter (notPage q)
    rw [List.filter_append, chunkAt_erase, ih none]
    by_cases h : r + 1 = q
    · rw [if_pos h, h, chunkAt_filter_self]
    · rw [if_neg h, chunkAt_filter_ne s (fun hc => h hc) cut]

theorem atomicAppendSeq_run_some_roll {V : Type} (cfg : Int) (s : LState V)
    (v : V) (l : List V) (hp : s.pages s.currentPage = some l)
    (hroll : cfg ≤ (l.length : Int) + 1) :
    atomicAppendSeq cfg s v =
      (createNewPageSeq
          ⟨s.currentPage + 1, (setPage s s.currentPage (l ++ [v])).pages⟩
          (s.currentPage + 1),
        Except.ok (s.currentPage, l.length)) := by
  simp [atomicAppendSeq, atomicAppendGo, hp, appendSuccessStep,
    increasePageCounterSeq, hroll]

theorem atomicAppendSeq_run_some_noroll {V : Type} (cfg : Int) (s : LState V)
    (v : V) (l : List V) (hp : s.pages s.currentPage = some l)
    (hroll : ¬cfg ≤ (l.length : Int) + 1) :
    atomicAppendSeq cfg s v =
      (setPage s s.currentPage (l ++ [v]),
        Except.ok (s.currentPage, l.length)) := by
  simp [atomicAppendSeq, atomicAppendGo, hp, appendSuccessStep,
    increasePageCounterSeq, hroll]

theorem atomicAppendSeq_run_none_roll {V : Type} (cfg : Int) (s : LState V)
    (v : V) (hp : s.pages s.currentPage = none) (hroll : cfg ≤ (1 : Int)) :
    atomicAppendSeq cfg s v =
      (createNewPageSeq
          ⟨s.currentPage + 1,
            (setPage (createNewPageSeq s s.currentPage) s.currentPage [v]).pages⟩
          (s.currentPage + 1),
        Except.ok (s.currentPage, 0)) := by
  simp [atomicAppendSeq, atomicAppendGo, hp, appendSuccessStep,
    increasePageCounterSeq, hroll, createNewPageSeq_pages_self]

theorem atomicAppendSeq_run_none_noroll {V : Type} (cfg : Int) (s : LState V)
    (v : V) (hp : s.pages s.currentPage = none) (hroll : ¬cfg ≤ (1 : Int)) :
    atomicAppendSeq cfg s v =
      (setPage (createNewPageSeq s s.currentPage) s.currentPage [v],
        Except.ok (s.currentPage, 0)) := by
  simp [atomicAppendSeq, atomicAppendGo, hp, appendSuccessStep,
    increasePageCounterSeq, hroll, createNewPageSeq_pages_self]

/-- The sequential invariant: no page beyond `currentPage` exists, and the
current page, when it exists, is strictly below the threshold (a full page
has already been rolled past). -/
def SeqInv {V : Type} (cfg : Int) (s : LState V) : Prop :=
  (∀ q, s.currentPage < q → s.pages q = none) ∧
  (∀ l, s.pages s.currentPage = some l → (l.length : Int) < cfg)

theorem seqInv_init {V : Type} (cfg : Int) : SeqInv cfg (initState V) :=
  ⟨fun _ _ => rfl, fun l hl => by simp [initState] at hl⟩

theorem atomicAppendSeq_spec {V : Type} (cfg : Int) (hc : 1 ≤ cfg)
    (s : LState V) (v : V) (hinv : SeqInv cfg s) :
    ∃ (s2 : LState V) (n : Nat),
      atomicAppendSeq cfg s v = (s2, Except.ok (s.currentPage, n - 1)) ∧
      1 ≤ n ∧
      s2.pages s.currentPage = some ((s.pages s.currentPage).getD [] ++ [v]) ∧
      n = ((s.pages s.currentPage).getD [] ++ [v]).length ∧
      (n : Int) ≤ cfg ∧
      (cfg ≤ (n : Int) →
        s2.currentPage = s.currentPage + 1 ∧
        s2.pages (s.currentPage + 1) = some []) ∧
      (¬cfg ≤ (n : Int) → s2.currentPage = s.currentPage) ∧
      SeqInv cfg s2 := by
  have hne : s.currentPage ≠ s.currentPage + 1 := by omega
  have hne2 : s.currentPage + 1 ≠ s.currentPage := by omega
  have h3 : s.pages (s.currentPage + 1) = none := hinv.1 _ (Nat.lt_succ_self _)
  cases hp : s.pages s.currentPage with
  | some l =>
    have hlt : (l.length : Int) < cfg := hinv.2 l hp
    by_cases hroll : cfg ≤ (l.length : Int) + 1
    · refine ⟨createNewPageSeq
          ⟨s.currentPage + 1, (setPage s s.currentPage (l ++ [v])).pages⟩
          (s.currentPage + 1), l.length + 1, ?_, by omega, ?_, by simp [hp],
        by push_cast; omega,
        fun _ => ⟨by simp, ?_⟩, fun hno => absurd (by push_cast; omega) hno,
        ?_, ?_⟩
      · simpa using atomicAppendSeq_run_some_roll cfg s v l hp hroll
      · rw [createNewPageSeq_pages_ne _ hne]
        simp [hp]
      · rw [createNewPageSeq_pages_self]
        simp [hne2, h3]
      · intro q hq
        have hq' : s.currentPage + 1 < q := by simpa using hq
        rw [createNewPageSeq_pages_ne _ (by omega : q ≠ s.currentPage + 1)]
        simp only [setPage_pages]
        rw [if_neg (by omega : ¬q = s.currentPage)]
        exact hinv.1 q (by omega)
      · intro l2 hl2
        rw [(by simp : (createNewPageSeq
            ⟨s.currentPage + 1, (setPage s s.currentPage (l ++ [v])).pages⟩
            (s.currentPage + 1)).currentPage = s.currentPage + 1),
          createNewPageSeq_pages_self] at hl2
        simp [hne2, h3] at hl2
        subst hl2
        simp
        omega
    · refine ⟨setPage s s.currentPage (l ++ [v]), l.length + 1, ?_, by omega,
        by simp [hp], by simp [hp], by push_cast; omega,
        fun hyes => absurd hyes (by push_cast; omega), fun _ => by simp,
        ?_, ?_⟩
      · simpa using atomicAppendSeq_run_some_noroll cfg s v l hp hroll
      · intro q hq
        have hq' : s.currentPage < q := by simpa using hq
        simp only [setPage_pages]
        rw [if_neg (by omega : ¬q = s.currentPage)]
        exact hinv.1 q hq'
      · intro l2 hl2
        simp at hl2
        subst hl2
        simp
        omega
  | none =>
    by_cases hroll : cfg ≤ (1 : Int)
    · refine ⟨createNewPageSeq
          ⟨s.currentPage + 1,
            (setPage (createNewPageSeq s s.currentPage) s.currentPage
              [v]).pages⟩
          (s.currentPage + 1), 1, ?_, Nat.le_refl 1, ?_, by simp [hp],
        by omega,
        fun _ => ⟨by simp, ?_⟩, fun hno => absurd (by omega : cfg ≤ ((1 : Nat) : Int)) hno,
        ?_, ?_⟩
      · simpa using atomicAppendSeq_run_none_roll cfg s v hp hroll
      · rw [createNewPageSeq_pages_ne _ hne]
        simp [hp]
      · rw [createNewPageSeq_pages_self]
        simp [hne2, createNewPageSeq_pages_ne _ hne2, h3]
      · intro q hq
        have hq' : s.currentPage + 1 < q := by simpa using hq
        rw [createNewPageSeq_pages_ne _ (by omega : q ≠ s.currentPage + 1)]
        simp only [setPage_pages]
        rw [if_neg (by omega : ¬q = s.currentPage)]
        rw [createNewPageSeq_pages_ne _ (by omega : q ≠ s.currentPage)]
        exact hinv.1 q (by omega)
      · intro l2 hl2
        rw [(by simp : (createNewPageSeq
            ⟨s.currentPage + 1,
              (setPage (createNewPageSeq s s.currentPage) s.currentPage
                [v]).pages⟩
            (s.currentPage + 1)).currentPage = s.currentPage + 1),
          createNewPageSeq_pages_self] at hl2
        simp [hne2, createNewPageSeq_pages_ne _ hne2, h3] at hl2
        subst hl2
        simp
        omega
    · refine ⟨setPage (createNewPageSeq s s.currentPage) s.currentPage [v], 1,
        ?_, Nat.le_refl 1, by simp [hp], by simp [hp], by omega,
        fun hyes => absurd hyes hroll, fun _ => by simp, ?_, ?_⟩
      · simpa using atomicAppendSeq_run_none_noroll cfg s v hp hroll
      · intro q hq
        have hq' : s.currentPage < q := by simpa using hq
        simp only [setPage_pages]
        rw [if_neg (by omega : ¬q = s.currentPage)]
        rw [createNewPageSeq_pages_ne _ (by omega : q ≠ s.currentPage)]
        exact hinv.1 q hq'
      · intro l2 hl2
        simp at hl2
        subst hl2
        simp
        omega

theorem appendMany_inv {V : Type} (cfg : Int) (hc : 1 ≤ cfg) :
    ∀ (vs : List V) (s0 s : LState V), SeqInv cfg s0 →
      appendManySeq cfg s0 vs = some s → SeqInv cfg s := by
  intro vs
  induction vs with
  | nil =>
    intro s0 s h0 hrun
    have : s0 = s := by simpa [appendManySeq] using hrun
    rw [← this]
    exact h0
  | cons v vs ih =>
    intro s0 s h0 hrun
    obtain ⟨s2, n, heq, _, _, _, _, _, _, hinv2⟩ :=
      atomicAppendSeq_spec cfg hc s0 v h0
    have hstep : appendStep cfg s0 v = some s2 := by
      simp [appendStep, heq]
    rw [show appendManySeq cfg s0 (v :: vs)
        = (match appendStep cfg s0 v with
          | some s1 => appendManySeq cfg s1 vs
          | none => none) from rfl, hstep] at hrun
    exact ih s2 s hinv2 hrun

theorem mostRecentFirst_irrefl {V : Type} {x : Item V}
    (h : mostRecentFirst x x) : False := by
  rcases h with h | ⟨_, h⟩ <;> exact Nat.lt_irrefl _ h

theorem indexFrom_snoc {V : Type} (p : Nat) :
    ∀ {i : Nat} {l : List V} {ys : List (Item V)} {x : Item V},
      indexFrom p i l = ys ++ [x] →
      x.page_id = p ∧ x.sequence_id = i + ys.length := by
  intro i l
  induction l generalizing i with
  | nil =>
    intro ys x h
    simp [indexFrom] at h
  | cons v vs ih =>
    intro ys x h
    cases ys with
    | nil =>
      have h2 : (⟨v, p, i⟩ : Item V) = x ∧ indexFrom p (i + 1) vs = [] := by
        simpa [indexFrom] using h
      rw [← h2.1]
      exact ⟨rfl, by simp⟩
    | cons y ys2 =>
      have h2 : indexFrom p (i + 1) vs = ys2 ++ [x] := by
        have := h
        simp only [indexFrom, List.cons_append, List.cons.injEq] at this
        exact this.2
      obtain ⟨ha, hb⟩ := ih h2
      refine ⟨ha, ?_⟩
      rw [hb]
      simp
      omega

theorem walkChunk_snoc_cut {V : Type} {r : List (Item V)} {x : Item V}
    (h : 1 ≤ r.length) :
    walkChunk (r.reverse ++ [x]) (some (r.length : Int)) = r := by
  have hk0 : ((r.length : Nat) : Int) ≠ 0 := by omega
  have hk1 : ¬(((r.length : Nat) : Int) < 0) := by omega
  rw [walkChunk, if_neg hk0]
  rw [spliceKeep, if_neg hk1]
  rw [Int.toNat_natCast]
  rw [show r.length = r.reverse.length from (List.length_reverse r).symm,
    List.take_append_of_le_length (Nat.le_refl _),
    List.take_of_length_le (Nat.le_refl _), List.reverse_reverse]

theorem getValidPointer_pos (pn sn : Nat) (h : 1 ≤ sn) :
    getValidPointer (pn : Int) (sn : Int) = ((pn : Int), some (sn : Int)) := by
  have h1 : ¬((sn : Int) ≤ 0) := by omega
  have h2 : ¬((pn : Int) < 0) := by omega
  simp [getValidPointer, h1, h2]

theorem getValidPointer_zero_succ (q : Nat) :
    getValidPointer ((q + 1 : Nat) : Int) ((0 : Nat) : Int) =
      ((q : Int), none) := by
  have h1 : (((0 : Nat) : Int)) ≤ 0 := by omega
  have h2 : ¬(((q + 1 : Nat) : Int) - 1 < 0) := by omega
  simp only [getValidPointer, if_pos h1, if_neg h2]
  simp only [Prod.mk.injEq]
  exact ⟨by omega, trivial⟩

/-- The head of a cursor-free walk is the topmost item; stepping past it via
`getValidPointer` yields exactly the rest of the walk, provided the head is
not the very first element of page 0 (where the clamp re-reads page 0). -/
theorem flattenWalk_head {V : Type} (s : LState V) :
    ∀ (p : Nat) (x : Item V) (tl : List (Item V)),
      flattenWalk s p none = x :: tl →
      ¬(x.page_id = 0 ∧ x.sequence_id = 0) →
      flattenWalk s
        ((getValidPointer (x.page_id : Int) (x.sequence_id : Int)).1.toNat)
        (getValidPointer (x.page_id : Int) (x.sequence_id : Int)).2 = tl := by
  intro p
  induction p with
  | zero =>
    intro x tl h hx
    have hch : (dlAt s 0).reverse = x :: tl := h
    have hdl : dlAt s 0 = tl.reverse ++ [x] := by
      rw [← List.reverse_reverse (dlAt s 0), hch]
      simp
    cases hp : s.pages 0 with
    | none =>
      rw [dlAt, hp] at hdl
      simp at hdl
    | some l =>
      have hdl3 : indexFrom 0 0 l = tl.reverse ++ [x] := by
        rw [← hdl]
        simp [dlAt, hp]
      have hsn := indexFrom_snoc 0 hdl3
      have hseq : x.sequence_id = tl.length := by
        rw [hsn.2]
        simp
      have htl1 : 1 ≤ tl.length := by
        rcases Nat.eq_zero_or_pos tl.length with h0 | h1
        · exact absurd ⟨hsn.1, by rw [hseq, h0]⟩ hx
        · exact h1
      rw [hsn.1, hseq, getValidPointer_pos 0 tl.length htl1]
      show chunkAt s 0 (some (tl.length : Int)) = tl
      rw [chunkAt, hdl, walkChunk_snoc_cut htl1]
  | succ q ih =>
    intro x tl h hx
    have hsplit : chunkAt s (q + 1) none ++ flattenWalk s q none = x :: tl := h
    cases hdl : dlAt s (q + 1) with
    | nil =>
      have hch : chunkAt s (q + 1) none = [] := by
        rw [chunkAt, hdl]
        rfl
      rw [hch, List.nil_append] at hsplit
      exact ih x tl hsplit hx
    | cons d ds =>
      have hchne : chunkAt s (q + 1) none ≠ [] := by
        rw [chunkAt, hdl]
        simp [walkChunk]
      obtain ⟨r, hr⟩ : ∃ r, chunkAt s (q + 1) none = x :: r := by
        cases hc : chunkAt s (q + 1) none with
        | nil => exact absurd hc hchne
        | cons c cs =>
          rw [hc] at hsplit
          exact ⟨cs, by simp_all⟩
      have htl : tl = r ++ flattenWalk s q none := by
        rw [hr] at hsplit
        simpa using hsplit.symm
      have hdl2 : dlAt s (q + 1) = r.reverse ++ [x] := by
        have : (dlAt s (q + 1)).reverse = x :: r := hr
        rw [← List.reverse_reverse (dlAt s (q + 1)), this]
        simp
      cases hp : s.pages (q + 1) with
      | none =>
        rw [dlAt, hp] at hdl2
        simp at hdl2
      | some l =>
        have hdl3 : indexFrom (q + 1) 0 l = r.reverse ++ [x] := by
          rw [← hdl2]
          simp [dlAt, hp]
        have hsn := indexFrom_snoc (q + 1) hdl3
        have hseq : x.sequence_id = r.length := by
          rw [hsn.2]
          simp
        rcases Nat.eq_zero_or_pos r.length with h0 | h1
        · have hrnil : r = [] := List.length_eq_zero.mp h0
          rw [hsn.1, hseq, h0, getValidPointer_zero_succ q]
          show flattenWalk s ((q : Int).toNat) none = tl
          rw [Int.toNat_natCast, htl, hrnil, List.nil_append]
        · rw [hsn.1, hseq, getValidPointer_pos (q + 1) r.length h1]
          show flattenWalk s (q + 1) (some (r.length : Int)) = tl
          show chunkAt s (q + 1) (some (r.length : Int)) ++ flattenWalk s q none = tl
          rw [chunkAt, hdl2, walkChunk_snoc_cut h1, htl]

end Lemmas

/-- C10: `ConfigureMaximumNumberOfElementPerPage` with 0 (falsy) silently
leaves `maxElementPerPage` unchanged, which stays at the default 50 if
never successfully set; any nonzero (truthy) argument, including a negative
number, is stored verbatim with no minimum-of-1 validation; and the
sequential append rolls the page over exactly when the stored value is at
most the new page length. -/
theorem configureMaxBehavior {V : Type} (cfg : Int) (s : LState V) (v : V)
    (l : List V) :
    (∀ cur : Int, configureMaximumNumberOfElementPerPage 0 cur = cur) ∧
    (∀ n cur : Int, n ≠ 0 → configureMaximumNumberOfElementPerPage n cur = n) ∧
    configDefault.maxElementPerPage = 50 ∧
    (s.pages s.currentPage = some l →
      ((atomicAppendSeq cfg s v).1.currentPage = s.currentPage + 1 ↔
        cfg ≤ (l.length : Int) + 1)) := by
  refine ⟨fun cur => rfl, fun n cur hn => by simp [configureMaximumNumberOfElementPerPage, hn], rfl, fun h => ?_⟩
  simp only [atomicAppendSeq, atomicAppendGo, h, List.headD_nil,
    appendSuccessStep, increasePageCounterSeq]
  by_cases h1 : cfg ≤ (l.length : Int) + 1
  · simp [h1]
  · simp [h1]

/-- C3: the result of `RetrieveLastMostRecent(id, N)` and of the underlying
walk holds at most `N` items; within it, an item from a higher-numbered
page precedes every item from a lower-numbered page and, within one page,
the higher `sequence_id` comes first; and the result is exactly the pages
reversed and concatenated from the start page down to page 0, truncated to
the first `N`. -/
theorem retrievalOrderAndSizeBound {V : Type} (s : LState V)
    (fromPage : Nat) (cut : Option Int) (N : Nat) :
    (retrieveLastMostRecentM s N).length ≤ N ∧
    (retrieveLastMostRecentM s N).Pairwise (mostRecentFirst (V := V)) ∧
    (retrieveNElementN s fromPage cut N).length ≤ N ∧
    (retrieveNElementN s fromPage cut N).Pairwise (mostRecentFirst (V := V)) ∧
    retrieveNElementN s fromPage cut N = (flattenWalk s fromPage cut).take N := by
  have hmain : ∀ (fp : Nat) (c : Option Int),
      (retrieveNElementN s fp c N).length ≤ N ∧
      (retrieveNElementN s fp c N).Pairwise (mostRecentFirst (V := V)) ∧
      retrieveNElementN s fp c N = (flattenWalk s fp c).take N := by
    intro fp c
    have he := retrieveNElementN_eq_take s fp c N
    refine ⟨?_, ?_, he⟩
    · rw [he, List.length_take]
      exact Nat.min_le_left _ _
    · rw [he]
      exact List.Pairwise.sublist (List.take_sublist _ _)
        (flattenWalk_pairwise s fp c)
  exact ⟨(hmain s.currentPage none).1, (hmain s.currentPage none).2.1,
    (hmain fromPage cut).1, (hmain fromPage cut).2.1, (hmain fromPage cut).2.2⟩

/-- C8 (counterexample): on a list whose page 0 holds one value, the cursor
(0, 0) — pointing at the first element of page 0, as the module itself
produces it (decimal strings) — does not yield the empty remainder: the
walk re-returns the item at the cursor position itself. -/
theorem cursorHeadClamp_cx :
    retrieveNextMostRecentM sHead (some ⟨JsVal.numStr 0, JsVal.numStr 0⟩) 5 =
      Except.ok [⟨3, 0, 0⟩] := rfl

/-- C8 (amended): a cursor with `sequence_id <= 0` resumes the walk at page
`page_id - 1` with no in-page cut, and a negative page is clamped to page 0
with sequence 0; but the clamped sequence 0 is falsy and therefore acts as
no cut at all, so a cursor pointing at the first element of page 0 returns
the whole of page 0 most-recent-first (the items at and above the cursor
position, truncated to N) instead of only what strictly precedes the
head. -/
theorem cursorHeadClampAmended {V : Type} (s : LState V) (N : Nat) :
    (∀ pi si : Int, si ≤ 0 →
      getValidPointer pi si =
        if pi - 1 < 0 then ((0 : Int), some (0 : Int)) else (pi - 1, none)) ∧
    (∀ dl : List (Item V), walkChunk dl (some 0) = dl.reverse) ∧
    retrieveNextMostRecentM s (some ⟨JsVal.numStr 0, JsVal.numStr 0⟩) N =
      Except.ok ((flattenWalk s 0 none).take N) := by
  refine ⟨?_, fun dl => rfl, ?_⟩
  · intro pi si hsi
    simp [getValidPointer, hsi]
  · have h1 : retrieveNextMostRecentM s (some ⟨JsVal.numStr 0, JsVal.numStr 0⟩) N
        = Except.ok (retrieveNElementN s 0 (some 0) N) := rfl
    have h2 : flattenWalk s 0 (some 0) = flattenWalk s 0 none := rfl
    rw [h1, retrieveNElementN_eq_take, h2]

/-- C8 (witness): the amended claim at the concrete one-page store — the
pointer normalization at cursor (2, 0) and the head-cursor result. -/
theorem cursorHeadClampAmended_witness :
    getValidPointer 2 0 = ((1 : Int), (none : Option Int)) ∧
    retrieveNextMostRecentM sHead (some ⟨JsVal.numStr 0, JsVal.numStr 0⟩) 5 =
      Except.ok ((flattenWalk sHead 0 none).take 5) :=
  ⟨((cursorHeadClampAmended sHead 5).1 2 0 (by decide)).trans (by decide),
    (cursorHeadClampAmended sHead 5).2.2⟩

/-- C9 (counterexample): a cursor that carries both a `page_id` and a
`sequence_id` as JS numbers, with `sequence_id` denoting position 0, is
nevertheless rejected: the number 0 is falsy, so the truthiness test treats
the field as missing. -/
theorem cursorValidationFalsy_cx :
    retrieveNextMostRecentM (initState Nat) (some ⟨JsVal.num 2, JsVal.num 0⟩) 5 =
      Except.error RetrievalErr.invalidCursor := rfl

/-- C9 (amended): `RetrieveNextMostRecent` raises `invalidCursor` exactly
when the cursor is absent or one of its fields is falsy (`undefined`, the
empty string, or the number 0); every cursor whose fields are nonempty
decimal strings — including a `sequence_id` of `"0"`, as produced by the
retrieval engine itself — is accepted and starts a walk. -/
theorem cursorValidationAmended {V : Type} (s : LState V) (c? : Option Cursor)
    (N : Nat) :
    (retrieveNextMostRecentM s c? N = Except.error RetrievalErr.invalidCursor ↔
      c? = none ∨ ∃ c, c? = some c ∧
        (jsTruthyInt c.page_id = none ∨ jsTruthyInt c.sequence_id = none)) ∧
    (∀ pn sn : Nat,
      retrieveNextMostRecentM s (some ⟨JsVal.numStr pn, JsVal.numStr sn⟩) N =
        Except.ok (retrieveNElementN s
          ((getValidPointer (pn : Int) (sn : Int)).1.toNat)
          (getValidPointer (pn : Int) (sn : Int)).2 N)) := by
  constructor
  · cases c? with
    | none => simp [retrieveNextMostRecentM]
    | some c =>
      cases hp : jsTruthyInt c.page_id with
      | none => simp [retrieveNextMostRecentM, hp]
      | some pageInt =>
        cases hs : jsTruthyInt c.sequence_id with
        | none => simp [retrieveNextMostRecentM, hp, hs]
        | some seqInt => simp [retrieveNextMostRecentM, hp, hs]
  · intro pn sn
    rfl

/-- C1: on a list operated on by a single non-concurrent caller (any state
reached from the fresh list by successful appends, with the configured
`maxElementPerPage` at least its documented minimum of 1), every successful
`AtomicAppend` lands on the page that was `currentPage`, leaves that page
with at most `maxElementPerPage` elements, and — exactly when the returned
new length `n` reaches the threshold — advances `currentPage` to `p + 1`
and creates page `p + 1` with an empty `data_list`. -/
theorem seqRolloverPostcondition {V : Type} (cfg : Int) (hc : 1 ≤ cfg)
    (s : LState V) (hs : ReachableSeq cfg s) (v : V) :
    ∃ (s2 : LState V) (n : Nat),
      atomicAppendSeq cfg s v = (s2, Except.ok (s.currentPage, n - 1)) ∧
      1 ≤ n ∧
      (∃ l, s2.pages s.currentPage = some l ∧ l.length = n ∧
        (l.length : Int) ≤ cfg) ∧
      (cfg ≤ (n : Int) →
        s2.currentPage = s.currentPage + 1 ∧
        s2.pages (s.currentPage + 1) = some []) ∧
      (¬cfg ≤ (n : Int) → s2.currentPage = s.currentPage) := by
  obtain ⟨vs, hvs⟩ := hs
  have hinv : SeqInv cfg s :=
    appendMany_inv cfg hc vs (initState V) s (seqInv_init cfg) hvs
  obtain ⟨s2, n, hrun, hn1, hpg, hlen, hle, hroll, hnoroll, _⟩ :=
    atomicAppendSeq_spec cfg hc s v hinv
  refine ⟨s2, n, hrun, hn1, ⟨_, hpg, ?_, ?_⟩, hroll, hnoroll⟩
  · rw [← hlen]
  · rw [← hlen]
    exact hle

/-- C1 (witness): appending the value 8 to the reachable one-element list
(page 0 holds [7], threshold 2) fills page 0 to exactly 2 elements and
rolls over: `currentPage` becomes 1 and page 1 is created empty. -/
theorem seqRolloverPostcondition_witness :
    ∃ (s2 : LState Nat) (n : Nat),
      atomicAppendSeq 2 reachedOne 8 =
        (s2, Except.ok (reachedOne.currentPage, n - 1)) ∧
      1 ≤ n ∧
      (∃ l, s2.pages reachedOne.currentPage = some l ∧ l.length = n ∧
        (l.length : Int) ≤ 2) ∧
      ((2 : Int) ≤ (n : Int) →
        s2.currentPage = reachedOne.currentPage + 1 ∧
        s2.pages (reachedOne.currentPage + 1) = some []) ∧
      (¬(2 : Int) ≤ (n : Int) → s2.currentPage = reachedOne.currentPage) :=
  seqRolloverPostcondition 2 (by decide) reachedOne ⟨[7], rfl⟩ 8

/-- C4 (counterexample): on the list built by the single successful append
of 7 (so its only item sits at (0, 0)), `RetrieveLastMostRecent(id, 1)`
returns that item, and `RetrieveNextMostRecent` with the cursor taken from
it returns the very same item again — an overlap, where the claim promises
the next items without overlap. -/
theorem cursorRoundTripHead_cx :
    (appendManySeq 2 (initState Nat) [7]).isSome = true ∧
    retrieveLastMostRecentM reachedOne 1 = [⟨7, 0, 0⟩] ∧
    retrieveNextMostRecentM reachedOne
        (some ⟨JsVal.numStr 0, JsVal.numStr 0⟩) 300 =
      Except.ok [⟨7, 0, 0⟩] :=
  ⟨rfl, rfl, rfl⟩

/-- C4 (amended): whenever `RetrieveLastMostRecent(id, 1)` returns an item
`x` that is not the very first element of the list (not at page 0,
sequence 0), `RetrieveNextMostRecent` with the cursor taken from `x`
returns the next `K` items — the first `K` of the full walk with `x`
dropped — in strict most-recent-first order and without overlap with `x`;
when `x` is at (0, 0) the clamped cursor re-returns `x` itself. -/
theorem cursorRoundTripAfterAppends {V : Type} (s : LState V) (K : Nat)
    (x : Item V) (h1 : retrieveLastMostRecentM s 1 = [x])
    (hx : ¬(x.page_id = 0 ∧ x.sequence_id = 0)) :
    retrieveNextMostRecentM s
        (some ⟨JsVal.numStr x.page_id, JsVal.numStr x.sequence_id⟩) K =
      Except.ok (((flattenWalk s s.currentPage none).drop 1).take K) ∧
    (((flattenWalk s s.currentPage none).drop 1).take K).Pairwise
      (mostRecentFirst (V := V)) ∧
    x ∉ ((flattenWalk s s.currentPage none).drop 1).take K := by
  have he : (flattenWalk s s.currentPage none).take 1 = [x] := by
    rw [← retrieveNElementN_eq_take s s.currentPage none 1]
    exact h1
  have hcons : flattenWalk s s.currentPage none =
      x :: (flattenWalk s s.currentPage none).drop 1 := by
    cases hF : flattenWalk s s.currentPage none with
    | nil => rw [hF] at he; simp at he
    | cons a t =>
      rw [hF] at he
      simp at he
      simp [he]
  have htail := flattenWalk_head s s.currentPage x
    ((flattenWalk s s.currentPage none).drop 1) hcons hx
  refine ⟨?_, ?_, ?_⟩
  · have hok : retrieveNextMostRecentM s
        (some ⟨JsVal.numStr x.page_id, JsVal.numStr x.sequence_id⟩) K =
        Except.ok (retrieveNElementN s
          ((getValidPointer (x.page_id : Int) (x.sequence_id : Int)).1.toNat)
          (getValidPointer (x.page_id : Int) (x.sequence_id : Int)).2 K) := rfl
    rw [hok, retrieveNElementN_eq_take, htail]
  · exact List.Pairwise.sublist
      ((List.take_sublist _ _).trans (List.drop_sublist _ _))
      (flattenWalk_pairwise s s.currentPage none)
  · intro hmem
    have hmem2 : x ∈ (flattenWalk s s.currentPage none).drop 1 :=
      (List.take_sublist _ _).subset hmem
    have hpw := flattenWalk_pairwise s s.currentPage none
    rw [hcons, List.pairwise_cons] at hpw
    exact mostRecentFirst_irrefl (hpw.1 x hmem2)

/-- C4 (witness): the amended round trip on the concrete two-page store,
whose most recent item is 12 at (1, 0): the cursor walk returns the items
of page 0 most-recent-first. -/
theorem cursorRoundTripAfterAppends_witness :
    retrieveNextMostRecentM sTwoPages
        (some ⟨JsVal.numStr 1, JsVal.numStr 0⟩) 2 =
      Except.ok (((flattenWalk sTwoPages sTwoPages.currentPage none).drop 1).take 2) :=
  (cursorRoundTripAfterAppends sTwoPages 2 ⟨12, 1, 0⟩ (by decide) (by decide)).1

/-- C6 (counterexample): with pages 2 = [10], 1 = [20], 0 = [30] and N = 2,
deleting page 1 yields [10@(2,0), 30@(0,0)] while the page-present result
minus page 1's items is [10@(2,0)] alone: truncation lets an older item
take the deleted page's slot, so the result is not "the same sequence minus
that page's items". -/
theorem blankPageTruncation_cx :
    retrieveLastMostRecentM (erasePage sBlank 1) 2 ≠
      (retrieveLastMostRecentM sBlank 2).filter (notPage 1) := by decide

/-- C6 (amended): a retrieval walk over a state with page `q` absent never
fails and treats the page as empty: it returns the first `N` of the full
(untruncated) walk of the page-present state minus that page's items —
which equals the page-present result minus that page's items whenever `N`
does not truncate, but may additionally pull in older items when it does.
Both `RetrieveLastMostRecent` and `RetrieveNextMostRecent` (for the
numeric-string cursors the module itself produces) are covered. -/
theorem blankPageToleranceFiltered {V : Type} (s : LState V) (q : Nat)
    (_hq : q ≤ s.currentPage) (N : Nat) :
    retrieveLastMostRecentM (erasePage s q) N =
      ((flattenWalk s s.currentPage none).filter (notPage q)).take N ∧
    (∀ (pn sn : Nat),
      retrieveNextMostRecentM (erasePage s q)
          (some ⟨JsVal.numStr pn, JsVal.numStr sn⟩) N =
        Except.ok (((flattenWalk s
            ((getValidPointer (pn : Int) (sn : Int)).1.toNat)
            (getValidPointer (pn : Int) (sn : Int)).2).filter
          (notPage q)).take N)) := by
  constructor
  · show retrieveNElementN (erasePage s q) (erasePage s q).currentPage none N = _
    rw [retrieveNElementN_eq_take, erasePage_currentPage, flattenWalk_erase]
  · intro pn sn
    show Except.ok (retrieveNElementN (erasePage s q) _ _ N) = _
    rw [retrieveNElementN_eq_take, flattenWalk_erase]

/-- C6 (witness): the amended claim at the concrete three-page store, with
the middle page deleted and N = 2. -/
theorem blankPageToleranceFiltered_witness :
    retrieveLastMostRecentM (erasePage sBlank 1) 2 =
      ((flattenWalk sBlank sBlank.currentPage none).filter (notPage 1)).take 2 :=
  (blankPageToleranceFiltered sBlank 1 (by decide) 2).1

/-- C2 (counterexample): a repeated `IdempotentCreate` on an id whose
summary already exists does not succeed: the conditional put's rejection is
uncaught, so the second call fails with `ConditionalCheckFailedException`
instead of returning a summary view. -/
theorem idempotentCreateRepeatRejected_cx :
    (idempotentCreateM (idempotentCreateM createCx0 (some 7)).1 (some 8)).2 =
      Except.error CreateErr.conditionalCheckFailed := rfl

/-- C2 (amended): a repeated `IdempotentCreate` on an id whose summary item
already exists leaves the stored summary (its `currentPage` and the
metadata written by the first call) unchanged and has no data-page side
effect, but the call itself fails with the uncaught
`ConditionalCheckFailedException` of the conditional put rather than
returning a summary view; a first call on a fresh id succeeds and returns
the summary it wrote. -/
theorem idempotentCreateRepeatEffect {M V : Type} (st : CreateState M V)
    (m2 : Option M) (srec : SummaryRec M) (h : st.summary = some srec) :
    idempotentCreateM st m2 =
      (st, Except.error CreateErr.conditionalCheckFailed) ∧
    (idempotentCreateM st m2).1.summary = some srec ∧
    (∀ q, (idempotentCreateM st m2).1.pages q = st.pages q) ∧
    (idempotentCreateM (⟨none, st.pages⟩ : CreateState M V) m2).2 =
      Except.ok (defaultPageSummary m2) := by
  simp [idempotentCreateM, h]

/-- C2 (witness): the amended claim at a concrete store whose summary was
written with `currentPage = 0` and metadata 5. -/
theorem idempotentCreateRepeatEffect_witness :
    (idempotentCreateM
      (⟨some ⟨1, 0, some 5⟩, fun _ => none⟩ : CreateState Nat Nat)
      (some 9)).1.summary = some ⟨1, 0, some 5⟩ :=
  (idempotentCreateRepeatEffect
    (⟨some ⟨1, 0, some 5⟩, fun _ => none⟩ : CreateState Nat Nat)
    (some 9) ⟨1, 0, some 5⟩ rfl).2.1

/-- C5: when the first list-append of `atomicAppendImpl` fails because the
page item is missing, the engine creates the page (`AlreadyExists`
swallowed) and retries the append exactly once: two failures leave the
store with at most the empty page materialized — no element recorded — and
fail the call with `createNewPageException`; a fault-free retry appends the
element once; and the call never consults a third append outcome. -/
theorem appendRecoveryRetriedOnce {V : Type} (cfg : Int) (v : V)
    (s : LState V) (p : Nat) (t t2 : List Bool) (b0 b1 : Bool) :
    atomicAppendImplF cfg (true :: true :: t) v s p =
      (createNewPageSeq s p, Except.error AppendErr.createNewPageException) ∧
    (∀ q, q ≠ p → (createNewPageSeq s p).pages q = s.pages q) ∧
    (createNewPageSeq s p).pages p = some ((s.pages p).getD []) ∧
    (atomicAppendImplF cfg (true :: false :: t) v s p).2 =
      Except.ok (p, (((s.pages p).getD []).length)) ∧
    atomicAppendImplF cfg (b0 :: b1 :: t) v s p =
      atomicAppendImplF cfg (b0 :: b1 :: t2) v s p := by
  refine ⟨?_, fun q hq => createNewPageSeq_pages_ne s hq, createNewPageSeq_pages_self s p, ?_, ?_⟩
  · cases h : s.pages p with
    | none =>
      simp [atomicAppendImplF, atomicAppendGo, h, createNewPageSeq_idem,
        createNewPageSeq_pages_self]
    | some l =>
      simp [atomicAppendImplF, atomicAppendGo, h, createNewPageSeq_idem,
        createNewPageSeq_pages_self]
  · cases h : s.pages p with
    | none =>
      simp [atomicAppendImplF, atomicAppendGo, h, createNewPageSeq_pages_self,
        appendSuccessStep_snd]
    | some l =>
      simp [atomicAppendImplF, atomicAppendGo, h, createNewPageSeq_pages_self,
        appendSuccessStep_snd]
  · cases h : s.pages p with
    | none =>
      cases h2 : (createNewPageSeq s p).pages p with
      | none => simp [atomicAppendImplF, atomicAppendGo, h, h2]
      | some l2 =>
        cases b1 <;>
          simp [atomicAppendImplF, atomicAppendGo, h, h2]
    | some l =>
      cases b0 with
      | false => simp [atomicAppendImplF, atomicAppendGo, h]
      | true =>
        cases h2 : (createNewPageSeq s p).pages p with
        | none => simp [atomicAppendImplF, atomicAppendGo, h, h2]
        | some l2 =>
          cases b1 <;>
            simp [atomicAppendImplF, atomicAppendGo, h, h2]

/-- C7: the summary's `currentPage` is written only by the conditional
increment, which either leaves it unchanged or advances it from the floor
`f` to `f + 1`; hence it never decreases across any append attempt or any
sequence of (possibly faulty) `AtomicAppend` calls, and it is a
non-negative integer throughout. -/
theorem monotoneCounterInvariant {V : Type} (cfg : Int) (v : V)
    (s : LState V) (floorVal p k : Nat) (faults : List Bool)
    (ops : List (V × List Bool)) :
    (increasePageCounterSeq s floorVal).1.currentPage =
      (if s.currentPage = floorVal then floorVal + 1 else s.currentPage) ∧
    s.currentPage ≤ (increasePageCounterSeq s floorVal).1.currentPage ∧
    s.currentPage ≤ (atomicAppendGo cfg v k faults s p).1.currentPage ∧
    s.currentPage ≤
      (ops.foldl
        (fun st op => (atomicAppendImplF cfg op.2 op.1 st st.currentPage).1)
        s).currentPage ∧
    (0 : Int) ≤ (s.currentPage : Int) := by
  refine ⟨?_, ?_, atomicAppendGo_cp_le cfg v k faults s p, ?_, Int.ofNat_nonneg _⟩
  · by_cases h : s.currentPage = floorVal <;> simp [increasePageCounterSeq, h]
  · by_cases h : s.currentPage = floorVal <;> simp [increasePageCounterSeq, h]
  · induction ops generalizing s with
    | nil => simp
    | cons op ops ih =>
      refine le_trans ?_ (ih ((atomicAppendImplF cfg op.2 op.1 s s.currentPage).1))
      exact atomicAppendGo_cp_le cfg op.1 2 op.2 s s.currentPage

end ScalableLinkedList
